import Mathlib

/-!
Verification of the reachable-subgraph extraction and run-request assembly
logic of `src/app/frontend/src/nodes/components/macro-news-start-node.tsx`
(the `handlePlay` handler).  The graph snapshot, DFS reachability, induced
edge filtering, model collection and request assembly are embedded as pure
Lean functions; the claims of the specification are then settled as theorems
about those functions.
-/

/-- An edge of the flow graph: an ordered pair of node ids
(`edge.source`, `edge.target` in the source). -/
structure Edge where
  source : String
  target : String
deriving DecidableEq, Repr

/-- A node of the flow graph, restricted to the four fields the handler
reads and forwards (`id`, `type`, `data`, `position`).  The `data` payload
is opaque to the handler, so it is modelled as a string; the 2D position is
modelled as a pair of integers (its value is only copied, never computed
with). -/
structure Node where
  id : String
  type : String
  data : String
  position : Int × Int
deriving DecidableEq, Repr

/-- A model descriptor as returned by `getAllAgentModels(flowId)[nodeId]`:
a model name and a provider. -/
structure ModelDescriptor where
  model_name : String
  provider : String
deriving DecidableEq, Repr

/-- One entry of the `agent_models` list pushed in the source loop:
`{agent_id: node.id, model_name: model.model_name, model_provider: model.provider}`. -/
structure AgentModelEntry where
  agent_id : String
  model_name : String
  model_provider : String
deriving DecidableEq, Repr

/-- The payload handed to `runFlow` at the end of `handlePlay`.  The two
trailing fields are `undefined` in the source, modelled as `Option`. -/
structure RunRequest where
  tickers : List String
  graph_nodes : List Node
  graph_edges : List Edge
  agent_models : List AgentModelEntry
  model_name : Option String
  model_provider : Option String
deriving DecidableEq, Repr

/-- The two mutable sets of the DFS in the source
(`visited` and `reachableNodes`), kept as lists in insertion order
(a JS `Set` preserves insertion order; the handler only uses membership,
but the insertion order is the traversal-discovery order). -/
structure DfsState where
  visited : List String
  reachable : List String
deriving DecidableEq, Repr

/-- All ids occurring in the edge list (sources and targets); used only for
the termination measure of the DFS. -/
def edgeIds (edges : List Edge) : List String :=
  edges.map Edge.source ++ edges.map Edge.target

/-- Worklist form of the recursive `dfs` of the source:

```
const dfs = (nodeId) => {
  if (visited.has(nodeId)) return;
  visited.add(nodeId);
  if (nodeId !== id) reachableNodes.add(nodeId);
  for (const edge of allEdges.filter(e => e.source === nodeId)) dfs(edge.target);
};
```

`dfsList edges start st pending` processes the pending stack of node ids;
visiting a node pushes the targets of its outgoing edges (in edge-list
order) onto the front of the stack, which is exactly the defunctionalised
call stack of the recursive `dfs`, so the visit discipline and the
insertion order of `visited`/`reachable` coincide with the source.
Termination: each visit either drops a pending entry or strictly shrinks
the set of edge-endpoint ids not yet visited. -/
def dfsList (edges : List Edge) (start : String) (st : DfsState)
    (pending : List String) : DfsState :=
  match pending with
  | [] => st
  | nodeId :: rest =>
    if nodeId ∈ st.visited then
      dfsList edges start st rest
    else
      dfsList edges start
        { visited := st.visited ++ [nodeId],
          reachable :=
            if nodeId = start then st.reachable else st.reachable ++ [nodeId] }
        (((edges.filter (fun e => e.source == nodeId)).map Edge.target) ++ rest)
termination_by (((edgeIds edges).toFinset \ st.visited.toFinset).card, pending.length)
decreasing_by
  · apply Prod.Lex.right
    exact Nat.lt_succ_self _
  · rename_i hvis
    by_cases hmem : nodeId ∈ edgeIds edges
    · apply Prod.Lex.left
      apply Finset.card_lt_card
      have hrw : (st.visited ++ [nodeId]).toFinset
          = insert nodeId st.visited.toFinset := by
        simp [List.toFinset_append, Finset.union_comm, Finset.insert_eq]
      rw [hrw, Finset.sdiff_insert]
      exact Finset.erase_ssubset
        (Finset.mem_sdiff.mpr ⟨List.mem_toFinset.mpr hmem,
          fun hc => hvis (List.mem_toFinset.mp hc)⟩)

    · have hcard : ((edgeIds edges).toFinset \ (st.visited ++ [nodeId]).toFinset).card
          = ((edgeIds edges).toFinset \ st.visited.toFinset).card := by
        congr 1
        ext x
        simp only [Finset.mem_sdiff, List.mem_toFinset, List.mem_append,
          List.mem_singleton]
        constructor
        · rintro ⟨hx, hnx⟩
          exact ⟨hx, fun hc => hnx (Or.inl hc)⟩
        · rintro ⟨hx, hnx⟩
          refine ⟨hx, ?_⟩
          rintro (hc | hc)
          · exact hnx hc
          · exact hmem (hc ▸ hx)
      have hfil : edges.filter (fun e => e.source == nodeId) = [] := by
        rw [List.filter_eq_nil_iff]
        intro e he
        simp only [beq_iff_eq]
        intro hc
        exact hmem (by
          unfold edgeIds
          exact List.mem_append.mpr (Or.inl (List.mem_map.mpr ⟨e, he, hc⟩)))
      rw [hcard, hfil]
      apply Prod.Lex.right
      exact Nat.lt_succ_self _

/-- The DFS of the source, run from the start node id on empty sets:
`dfs(id)` after `reachableNodes = new Set(); visited = new Set();`. -/
def dfsRun (edges : List Edge) (id : String) : DfsState :=
  dfsList edges id ⟨[], []⟩ [id]

/-- `reachableNodeIds = new Set([id, ...reachableNodes])`. -/
def reachableNodeIds (edges : List Edge) (id : String) : List String :=
  id :: (dfsRun edges id).reachable

/-- `agentNodes = [...(startNode ? [startNode] : []),
...allNodes.filter(node => reachableNodes.has(node.id))]` where
`startNode = allNodes.find(node => node.id === id)`. -/
def agentNodes (allNodes : List Node) (allEdges : List Edge) (id : String) :
    List Node :=
  (allNodes.find? (fun node => node.id == id)).toList ++
    allNodes.filter (fun node => decide (node.id ∈ (dfsRun allEdges id).reachable))

/-- `validEdges = allEdges.filter(edge => reachableNodeIds.has(edge.source)
&& reachableNodeIds.has(edge.target))`. -/
def validEdges (allEdges : List Edge) (id : String) : List Edge :=
  allEdges.filter (fun edge =>
    decide (edge.source ∈ reachableNodeIds allEdges id) &&
    decide (edge.target ∈ reachableNodeIds allEdges id))

/-- The `for (const node of agentNodes)` loop that pushes an entry onto
`agentModels` whenever `allAgentModels[node.id]` is defined, skipping the
node otherwise. -/
def collectModels (lookup : String → Option ModelDescriptor) :
    List Node → List AgentModelEntry
  | [] => []
  | node :: rest =>
    match lookup node.id with
    | some m => ⟨node.id, m.model_name, m.provider⟩ :: collectModels lookup rest
    | none => collectModels lookup rest

/-- The whole `handlePlay` computation: DFS reachability from the start
node id, induced node and edge lists, model collection, and the `runFlow`
payload with empty tickers and unset global model fields. -/
def handlePlay (allNodes : List Node) (allEdges : List Edge) (id : String)
    (lookup : String → Option ModelDescriptor) : RunRequest :=
  { tickers := [],
    graph_nodes := (agentNodes allNodes allEdges id).map
      (fun node => ⟨node.id, node.type, node.data, node.position⟩),
    graph_edges := validEdges allEdges id,
    agent_models := collectModels lookup (agentNodes allNodes allEdges id),
    model_name := none,
    model_provider := none }

/-- Directed reachability along the edge list: the reflexive-transitive
closure of "there is an edge from `a` to `b`". -/
inductive Reaches (edges : List Edge) : String → String → Prop where
  | refl (a : String) : Reaches edges a a
  | head {a b : String} {e : Edge} (hmem : e ∈ edges) (hsrc : e.source = a)
      (htail : Reaches edges e.target b) : Reaches edges a b

theorem Reaches.snoc {edges : List Edge} {s a : String} {e : Edge}
    (hr : Reaches edges s a) : e ∈ edges → e.source = a → Reaches edges s e.target := by
  induction hr with
  | refl _ =>
    intro hmem hsrc
    exact Reaches.head hmem hsrc (Reaches.refl _)
  | head hmem' hsrc' _ ih =>
    intro hmem hsrc
    exact Reaches.head hmem' hsrc' (ih hmem hsrc)

/-- The visited list only grows during the DFS. -/
theorem dfsList_visited_mono (edges : List Edge) (start : String)
    (st : DfsState) (pending : List String) :
    ∀ x ∈ st.visited, x ∈ (dfsList edges start st pending).visited := by
  induction st, pending using dfsList.induct edges start with
  | case1 st => simp [dfsList]
  | case2 st nodeId rest hvis ih =>
    intro x hx
    rw [dfsList]
    simp only [if_pos hvis]
    exact ih x hx
  | case3 st nodeId rest hvis ih =>
    intro x hx
    rw [dfsList]
    simp only [if_neg hvis]
    exact ih x (by simp [hx])

/-- Every pending node id ends up visited. -/
theorem dfsList_pending_visited (edges : List Edge) (start : String)
    (st : DfsState) (pending : List String) :
    ∀ x ∈ pending, x ∈ (dfsList edges start st pending).visited := by
  induction st, pending using dfsList.induct edges start with
  | case1 st => simp
  | case2 st nodeId rest hvis ih =>
    intro x hx
    rw [dfsList]
    simp only [if_pos hvis]
    rcases List.mem_cons.mp hx with hx | hx
    · exact dfsList_visited_mono edges start st rest x (hx ▸ hvis)
    · exact ih x hx
  | case3 st nodeId rest hvis ih =>
    intro x hx
    rw [dfsList]
    simp only [if_neg hvis]
    rcases List.mem_cons.mp hx with hx | hx
    · exact dfsList_visited_mono edges start _ _ x (by simp [hx])
    · exact ih x (by simp [hx])

/-- Soundness scheme: any property that holds of the already-visited and
pending ids and is preserved along outgoing edges holds of everything the
DFS ever visits. -/
theorem dfsList_sound (edges : List Edge) (start : String)
    (st : DfsState) (pending : List String) (P : String → Prop)
    (hP : ∀ a, P a → ∀ e ∈ edges, e.source = a → P e.target) :
    (∀ x ∈ st.visited, P x) → (∀ x ∈ pending, P x) →
    ∀ x ∈ (dfsList edges start st pending).visited, P x := by
  induction st, pending using dfsList.induct edges start with
  | case1 st =>
    intro hv _
    rw [dfsList]
    exact hv
  | case2 st nodeId rest hvis ih =>
    intro hv hp
    rw [dfsList]
    simp only [if_pos hvis]
    exact ih hv (fun x hx => hp x (List.mem_cons_of_mem _ hx))
  | case3 st nodeId rest hvis ih =>
    intro hv hp
    rw [dfsList]
    simp only [if_neg hvis]
    refine ih ?_ ?_
    · intro x hx
      rcases List.mem_append.mp hx with hx | hx
      · exact hv x hx
      · rw [List.mem_singleton.mp hx]
        exact hp nodeId (List.mem_cons_self _ _)
    · intro x hx
      rcases List.mem_append.mp hx with hx | hx
      · rcases List.mem_map.mp hx with ⟨e, he, rfl⟩
        have hsrc : e.source = nodeId := by
          simpa using (List.mem_filter.mp he).2
        exact hP nodeId (hp nodeId (List.mem_cons_self _ _)) e
          (List.mem_filter.mp he).1 hsrc
      · exact hp x (List.mem_cons_of_mem _ hx)

/-- Completeness scheme: if every edge out of a visited id leads to a
visited or pending id, then after the DFS drains the pending stack the
visited set is closed under outgoing edges. -/
theorem dfsList_closed (edges : List Edge) (start : String)
    (st : DfsState) (pending : List String) :
    (∀ e ∈ edges, e.source ∈ st.visited →
      e.target ∈ st.visited ∨ e.target ∈ pending) →
    ∀ e ∈ edges, e.source ∈ (dfsList edges start st pending).visited →
      e.target ∈ (dfsList edges start st pending).visited := by
  induction st, pending using dfsList.induct edges start with
  | case1 st =>
    intro hInv e he hsrc
    rw [dfsList] at *
    rcases hInv e he hsrc with h | h
    · exact h
    · exact absurd h (List.not_mem_nil _)
  | case2 st nodeId rest hvis ih =>
    intro hInv
    rw [dfsList]
    simp only [if_pos hvis]
    refine ih ?_
    intro e he hsrc
    rcases hInv e he hsrc with h | h
    · exact Or.inl h
    · rcases List.mem_cons.mp h with h | h
      · exact Or.inl (h ▸ hvis)
      · exact Or.inr h
  | case3 st nodeId rest hvis ih =>
    intro hInv
    rw [dfsList]
    simp only [if_neg hvis]
    refine ih ?_
    intro e he hsrc
    rcases List.mem_append.mp hsrc with h | h
    · rcases hInv e he h with h' | h'
      · exact Or.inl (List.mem_append.mpr (Or.inl h'))
      · rcases List.mem_cons.mp h' with h' | h'
        · exact Or.inl (List.mem_append.mpr (Or.inr (by simp [h'])))
        · exact Or.inr (List.mem_append.mpr (Or.inr h'))
    · have hsn : e.source = nodeId := List.mem_singleton.mp h
      refine Or.inr (List.mem_append.mpr (Or.inl ?_))
      exact List.mem_map.mpr ⟨e, List.mem_filter.mpr ⟨he, by simp [hsn]⟩, rfl⟩

/-- The bookkeeping invariant of the DFS state: both lists are duplicate
free and the reachable list is exactly the visited list minus the start
id. -/
theorem dfsList_state_inv (edges : List Edge) (start : String)
    (st : DfsState) (pending : List String) :
    st.visited.Nodup → st.reachable.Nodup →
    (∀ x, x ∈ st.reachable ↔ x ∈ st.visited ∧ x ≠ start) →
    (dfsList edges start st pending).visited.Nodup ∧
    (dfsList edges start st pending).reachable.Nodup ∧
    (∀ x, x ∈ (dfsList edges start st pending).reachable ↔
      x ∈ (dfsList edges start st pending).visited ∧ x ≠ start) := by
  induction st, pending using dfsList.induct edges start with
  | case1 st =>
    intro hv hr hinv
    rw [dfsList]
    exact ⟨hv, hr, hinv⟩
  | case2 st nodeId rest hvis ih =>
    intro hv hr hinv
    rw [dfsList]
    simp only [if_pos hvis]
    exact ih hv hr hinv
  | case3 st nodeId rest hvis ih =>
    intro hv hr hinv
    rw [dfsList]
    simp only [if_neg hvis]
    refine ih ?_ ?_ ?_
    · simp [List.nodup_append, hv, hvis]
    · show (if _ : nodeId = start then st.reachable else st.reachable ++ [nodeId]).Nodup
      by_cases hstart : nodeId = start
      · rw [dif_pos hstart]
        exact hr
      · have hnr : nodeId ∉ st.reachable := fun hc => hvis ((hinv nodeId).mp hc).1
        rw [dif_neg hstart]
        simp [List.nodup_append, hr, hnr]
    · intro x
      show x ∈ (if _ : nodeId = start then st.reachable else st.reachable ++ [nodeId]) ↔
        x ∈ st.visited ++ [nodeId] ∧ x ≠ start
      by_cases hstart : nodeId = start
      · rw [dif_pos hstart]
        rw [hinv x]
        constructor
        · rintro ⟨hx, hne⟩
          exact ⟨List.mem_append.mpr (Or.inl hx), hne⟩
        · rintro ⟨hx, hne⟩
          rcases List.mem_append.mp hx with hx | hx
          · exact ⟨hx, hne⟩
          · exact absurd ((List.mem_singleton.mp hx).trans hstart) hne
      · rw [dif_neg hstart]
        constructor
        · intro hx
          rcases List.mem_append.mp hx with hx | hx
          · rcases (hinv x).mp hx with ⟨hx', hne⟩
            exact ⟨List.mem_append.mpr (Or.inl hx'), hne⟩
          · have hx' := List.mem_singleton.mp hx
            exact ⟨List.mem_append.mpr (Or.inr hx), hx' ▸ hstart⟩
        · rintro ⟨hx, hne⟩
          rcases List.mem_append.mp hx with hx | hx
          · exact List.mem_append.mpr (Or.inl ((hinv x).mpr ⟨hx, hne⟩))
          · exact List.mem_append.mpr (Or.inr hx)

/-- After `dfsRun` the visited set is closed under outgoing edges. -/
theorem dfsRun_closed (edges : List Edge) (s : String) :
    ∀ e ∈ edges, e.source ∈ (dfsRun edges s).visited →
      e.target ∈ (dfsRun edges s).visited := by
  have h := dfsList_closed edges s ⟨[], []⟩ [s]
    (fun e _ hsrc => absurd hsrc (List.not_mem_nil _))
  simpa [dfsRun] using h

/-- The start id is always visited by `dfsRun`. -/
theorem dfsRun_start_mem (edges : List Edge) (s : String) :
    s ∈ (dfsRun edges s).visited := by
  have h := dfsList_pending_visited edges s ⟨[], []⟩ [s] s
    (List.mem_cons_self s [])
  simpa [dfsRun] using h

theorem dfsRun_mem_of_reaches (edges : List Edge) (s : String) {a b : String}
    (hr : Reaches edges a b) (ha : a ∈ (dfsRun edges s).visited) :
    b ∈ (dfsRun edges s).visited := by
  induction hr with
  | refl _ => exact ha
  | head hmem hsrc _ ih => exact ih (dfsRun_closed edges s _ hmem (hsrc ▸ ha))

/-- The ids visited by `dfsRun` are exactly the ids reachable from the
start id along directed edges. -/
theorem dfsRun_visited_iff (edges : List Edge) (s : String) (x : String) :
    x ∈ (dfsRun edges s).visited ↔ Reaches edges s x := by
  constructor
  · intro hx
    refine dfsList_sound edges s ⟨[], []⟩ [s] (Reaches edges s)
      (fun a ha e he hsrc => Reaches.snoc ha he hsrc) ?_ ?_ x (by simpa [dfsRun] using hx)
    · intro y hy
      exact absurd hy (List.not_mem_nil _)
    · intro y hy
      rw [List.mem_singleton.mp hy]
      exact Reaches.refl s
  · intro hx
    exact dfsRun_mem_of_reaches edges s hx (dfsRun_start_mem edges s)

/-- The reachable list of `dfsRun` is the visited list without the start
id, and both lists are duplicate free. -/
theorem dfsRun_inv (edges : List Edge) (s : String) :
    (dfsRun edges s).visited.Nodup ∧ (dfsRun edges s).reachable.Nodup ∧
    (∀ x, x ∈ (dfsRun edges s).reachable ↔
      x ∈ (dfsRun edges s).visited ∧ x ≠ s) := by
  exact dfsList_state_inv edges s ⟨[], []⟩ [s] List.nodup_nil List.nodup_nil
    (fun x => by simp)

/-- An id is in the reachable list iff it is reachable from the start id
and distinct from it. -/
theorem dfsRun_reachable_iff (edges : List Edge) (s : String) (x : String) :
    x ∈ (dfsRun edges s).reachable ↔ Reaches edges s x ∧ x ≠ s := by
  rw [(dfsRun_inv edges s).2.2 x, dfsRun_visited_iff]

/-- Every visited id is the start id or the target of some input edge:
the DFS never consults the node list, so it can visit ids that no node
carries. -/
theorem dfsRun_visited_origin (edges : List Edge) (s : String) (x : String)
    (hx : x ∈ (dfsRun edges s).visited) :
    x = s ∨ x ∈ edges.map Edge.target := by
  refine dfsList_sound edges s ⟨[], []⟩ [s]
    (fun y => y = s ∨ y ∈ edges.map Edge.target) ?_ ?_ ?_ x
    (by simpa [dfsRun] using hx)
  · intro a _ e he _
    exact Or.inr (List.mem_map.mpr ⟨e, he, rfl⟩)
  · intro y hy
    exact absurd hy (List.not_mem_nil _)
  · intro y hy
    exact Or.inl (List.mem_singleton.mp hy)

/-- Projecting the four forwarded fields of a node is the identity on the
node model. -/
theorem map_node_proj (l : List Node) :
    l.map (fun node => (⟨node.id, node.type, node.data, node.position⟩ : Node)) = l := by
  induction l with
  | nil => rfl
  | cons n rest ih => simp [ih]

/-- The node list of the assembled request is the `agentNodes` list. -/
theorem handlePlay_graph_nodes (allNodes : List Node) (allEdges : List Edge)
    (id : String) (lookup : String → Option ModelDescriptor) :
    (handlePlay allNodes allEdges id lookup).graph_nodes =
      agentNodes allNodes allEdges id := by
  simp [handlePlay, map_node_proj]

/-- Membership in the filtered tail of `agentNodes`, characterised through
directed reachability. -/
theorem mem_filter_reachable (nodes : List Node) (edges : List Edge)
    (s : String) (n : Node) :
    n ∈ nodes.filter (fun node => decide (node.id ∈ (dfsRun edges s).reachable)) ↔
      n ∈ nodes ∧ Reaches edges s n.id ∧ n.id ≠ s := by
  rw [List.mem_filter]
  simp [dfsRun_reachable_iff]

/-- An edge survives the `validEdges` filter iff both endpoint ids are
reachable from the start id (the start id itself counts as reachable). -/
theorem mem_validEdges_iff (edges : List Edge) (s : String) (e : Edge) :
    e ∈ validEdges edges s ↔
      e ∈ edges ∧ Reaches edges s e.source ∧ Reaches edges s e.target := by
  unfold validEdges
  rw [List.mem_filter]
  have hids : ∀ x, x ∈ reachableNodeIds edges s ↔ Reaches edges s x := by
    intro x
    unfold reachableNodeIds
    rw [List.mem_cons, dfsRun_reachable_iff]
    constructor
    · rintro (rfl | ⟨h, _⟩)
      · exact Reaches.refl x
      · exact h
    · intro h
      by_cases hx : x = s
      · exact Or.inl hx
      · exact Or.inr ⟨h, hx⟩
  simp [hids]

/-- Fixed lookup used for concrete evaluations: no node has a model. -/
def noModels : String → Option ModelDescriptor := fun _ => none

/-- Concrete node builder for evaluation graphs. -/
def mkN (i : String) : Node := ⟨i, "agent", "", (0, 0)⟩

/-- C1: a node drawn from the input node list appears in the output node
list iff its id is the start id or there is a directed path of edges from
the start id to it (node ids assumed unique, as the data model requires). -/
theorem claim1_node_included_iff_reachable
    (nodes : List Node) (edges : List Edge) (s : String)
    (lookup : String → Option ModelDescriptor) (n : Node)
    (hnd : (nodes.map Node.id).Nodup) (hn : n ∈ nodes) :
    n ∈ (handlePlay nodes edges s lookup).graph_nodes ↔
      (n.id = s ∨ Reaches edges s n.id) := by
  rw [handlePlay_graph_nodes]
  unfold agentNodes
  rw [List.mem_append]
  constructor
  · rintro (h | h)
    · cases hfind : nodes.find? (fun node => node.id == s) with
      | none => simp [hfind] at h
      | some m =>
        rw [hfind] at h
        simp only [Option.toList_some, List.mem_singleton] at h
        subst h
        have := List.find?_some hfind
        exact Or.inl (by simpa using this)
    · exact Or.inr ((mem_filter_reachable nodes edges s n).mp h).2.1
  · intro h
    by_cases hs : n.id = s
    · left
      have hex : (nodes.find? (fun node => node.id == s)).isSome := by
        rw [List.find?_isSome]
        exact ⟨n, hn, by simpa using hs⟩
      obtain ⟨m, hfind⟩ := Option.isSome_iff_exists.mp hex
      have hm : m ∈ nodes := List.mem_of_find?_eq_some hfind
      have hms : m.id = s := by simpa using List.find?_some hfind
      have hmn : m = n := List.inj_on_of_nodup_map hnd hm hn (by rw [hms, hs])
      rw [hfind, hmn]
      simp
    · right
      rcases h with h | h
      · exact absurd h hs
      · exact (mem_filter_reachable nodes edges s n).mpr ⟨hn, h, hs⟩

theorem claim1_witness :
    (((([mkN "s", mkN "a"]).map Node.id).Nodup ∧ mkN "a" ∈ [mkN "s", mkN "a"])) ∧
    (mkN "a" ∈ (handlePlay [mkN "s", mkN "a"] [⟨"s", "a"⟩] "s" noModels).graph_nodes ↔
      ((mkN "a").id = "s" ∨ Reaches [⟨"s", "a"⟩] "s" (mkN "a").id)) :=
  ⟨⟨by decide, by decide⟩,
    claim1_node_included_iff_reachable [mkN "s", mkN "a"] [⟨"s", "a"⟩] "s"
      noModels (mkN "a") (by decide) (by decide)⟩

/-- C3: the output node list is the found start node (if any) followed by
the reachable nodes in original input order, and the output edge list is
the input edge list filtered in order to edges with both endpoint ids
reachable. -/
theorem claim3_order_preservation
    (nodes : List Node) (edges : List Edge) (s : String)
    (lookup : String → Option ModelDescriptor) :
    (∃ rest : List Node,
      (handlePlay nodes edges s lookup).graph_nodes =
        (nodes.find? (fun node => node.id == s)).toList ++ rest ∧
      rest.Sublist nodes ∧
      (∀ n, n ∈ rest ↔ n ∈ nodes ∧ n.id ≠ s ∧ Reaches edges s n.id)) ∧
    (handlePlay nodes edges s lookup).graph_edges.Sublist edges ∧
    (∀ e, e ∈ (handlePlay nodes edges s lookup).graph_edges ↔
      e ∈ edges ∧ Reaches edges s e.source ∧ Reaches edges s e.target) := by
  refine ⟨⟨nodes.filter (fun node => decide (node.id ∈ (dfsRun edges s).reachable)),
    ?_, List.filter_sublist _, ?_⟩, ?_, ?_⟩
  · rw [handlePlay_graph_nodes]
    rfl
  · intro n
    rw [mem_filter_reachable]
    tauto
  · exact List.filter_sublist _
  · intro e
    exact mem_validEdges_iff edges s e

/-- C4 counterexample: with nodes in input order s, b, a and edges
s→a, a→b, the DFS discovery order of the reachable set is a, b, yet the
request's node list is s, b, a (input order), not s, a, b (discovery
order). -/
theorem claim4_counterexample :
    (handlePlay [mkN "s", mkN "b", mkN "a"] [⟨"s", "a"⟩, ⟨"a", "b"⟩] "s"
        noModels).graph_nodes.map Node.id = ["s", "b", "a"] ∧
    "s" :: (dfsRun [⟨"s", "a"⟩, ⟨"a", "b"⟩] "s").reachable = ["s", "a", "b"] ∧
    (["s", "b", "a"] : List String) ≠ ["s", "a", "b"] := by
  refine ⟨?_, ?_, by decide⟩
  · simp [handlePlay, agentNodes, dfsRun, dfsList, edgeIds, mkN]
  · simp [dfsRun, dfsList, edgeIds]

/-- C4 amended: the node list of the request is the start node first,
followed by the reachable nodes in the order of the input node array
(not DFS discovery order). -/
theorem claim4_amended_original_order
    (nodes : List Node) (edges : List Edge) (s : String)
    (lookup : String → Option ModelDescriptor) :
    (handlePlay nodes edges s lookup).graph_nodes =
      (nodes.find? (fun node => node.id == s)).toList ++
        nodes.filter (fun node => decide (node.id ∈ (dfsRun edges s).reachable)) := by
  rw [handlePlay_graph_nodes]
  rfl

/-- C7: the assignment list contains, in node order, exactly one entry per
included node whose lookup yields a descriptor, carrying that node's id
and the descriptor's fields; nodes without a descriptor are skipped. -/
theorem claim7_agent_models
    (nodes : List Node) (edges : List Edge) (s : String)
    (lookup : String → Option ModelDescriptor) :
    (∀ ns : List Node, collectModels lookup ns =
      ns.filterMap (fun node => (lookup node.id).map
        (fun m => (⟨node.id, m.model_name, m.provider⟩ : AgentModelEntry)))) ∧
    (handlePlay nodes edges s lookup).agent_models =
      (agentNodes nodes edges s).filterMap (fun node => (lookup node.id).map
        (fun m => (⟨node.id, m.model_name, m.provider⟩ : AgentModelEntry))) := by
  have hmain : ∀ ns : List Node, collectModels lookup ns =
      ns.filterMap (fun node => (lookup node.id).map
        (fun m => (⟨node.id, m.model_name, m.provider⟩ : AgentModelEntry))) := by
    intro ns
    induction ns with
    | nil => rfl
    | cons n rest ih =>
      cases hl : lookup n.id with
      | none => simp [collectModels, hl, List.filterMap_cons, ih]
      | some m => simp [collectModels, hl, List.filterMap_cons, ih]
  exact ⟨hmain, hmain (agentNodes nodes edges s)⟩

/-- C10: the assembled request always has an empty ticker list and both
global model fields unset. -/
theorem claim10_empty_tickers_unset_models
    (nodes : List Node) (edges : List Edge) (s : String)
    (lookup : String → Option ModelDescriptor) :
    (handlePlay nodes edges s lookup).tickers = [] ∧
    (handlePlay nodes edges s lookup).model_name = none ∧
    (handlePlay nodes edges s lookup).model_provider = none :=
  ⟨rfl, rfl, rfl⟩

/-- C2 counterexample: with a single node s and the single edge s→x where
no node has id x, the edge s→x is kept in the output edge list although no
node of the output node list carries the id x, contradicting the claimed
endpoint invariant. -/
theorem claim2_counterexample :
    (⟨"s", "x"⟩ : Edge) ∈
      (handlePlay [mkN "s"] [⟨"s", "x"⟩] "s" noModels).graph_edges ∧
    ¬ ∃ n ∈ (handlePlay [mkN "s"] [⟨"s", "x"⟩] "s" noModels).graph_nodes,
        n.id = "x" := by
  constructor
  · simp [handlePlay, validEdges, reachableNodeIds, dfsRun, dfsList, edgeIds]
  · simp [handlePlay, agentNodes, dfsRun, dfsList, edgeIds, mkN]

/-- C2 amended: every edge of the output edge list has both endpoint ids
reachable from the start id; provided the start id and every edge-target id
occur as ids of input nodes, both endpoints of every output edge are
present in the output node list. -/
theorem claim2_amended_edge_endpoints
    (nodes : List Node) (edges : List Edge) (s : String)
    (lookup : String → Option ModelDescriptor)
    (hs : s ∈ nodes.map Node.id)
    (ht : ∀ e ∈ edges, e.target ∈ nodes.map Node.id) :
    ∀ e ∈ (handlePlay nodes edges s lookup).graph_edges,
      (Reaches edges s e.source ∧ Reaches edges s e.target) ∧
      (∃ n ∈ (handlePlay nodes edges s lookup).graph_nodes, n.id = e.source) ∧
      (∃ n ∈ (handlePlay nodes edges s lookup).graph_nodes, n.id = e.target) := by
  have key : ∀ x, Reaches edges s x → (x = s ∨ x ∈ edges.map Edge.target) →
      ∃ n ∈ agentNodes nodes edges s, n.id = x := by
    intro x hreach hx
    by_cases hxs : x = s
    · subst hxs
      have hex : (nodes.find? (fun node => node.id == x)).isSome := by
        rw [List.find?_isSome]
        obtain ⟨n, hn, hid⟩ := List.mem_map.mp hs
        exact ⟨n, hn, by simp [hid]⟩
      obtain ⟨m, hfind⟩ := Option.isSome_iff_exists.mp hex
      refine ⟨m, ?_, by simpa using List.find?_some hfind⟩
      unfold agentNodes
      exact List.mem_append.mpr (Or.inl (by simp [hfind]))
    · rcases hx with rfl | hx
      · exact absurd rfl hxs
      · obtain ⟨e, he, htg⟩ := List.mem_map.mp hx
        have hxid : x ∈ nodes.map Node.id := htg ▸ ht e he
        obtain ⟨n, hn, hid⟩ := List.mem_map.mp hxid
        refine ⟨n, ?_, hid⟩
        unfold agentNodes
        refine List.mem_append.mpr (Or.inr ?_)
        exact (mem_filter_reachable nodes edges s n).mpr
          ⟨hn, hid ▸ hreach, hid ▸ hxs⟩
  intro e he
  rw [show (handlePlay nodes edges s lookup).graph_edges = validEdges edges s
    from rfl] at he
  obtain ⟨hee, hsr, htr⟩ := (mem_validEdges_iff edges s e).mp he
  have hsrc_origin : e.source = s ∨ e.source ∈ edges.map Edge.target :=
    dfsRun_visited_origin edges s e.source ((dfsRun_visited_iff edges s _).mpr hsr)
  have htgt_origin : e.target = s ∨ e.target ∈ edges.map Edge.target :=
    Or.inr (List.mem_map.mpr ⟨e, hee, rfl⟩)
  refine ⟨⟨hsr, htr⟩, ?_, ?_⟩
  · rw [handlePlay_graph_nodes]
    exact key e.source hsr hsrc_origin
  · rw [handlePlay_graph_nodes]
    exact key e.target htr htgt_origin

theorem claim2_witness :
    (("s" ∈ ([mkN "s", mkN "a"]).map Node.id) ∧
      (∀ e ∈ [(⟨"s", "a"⟩ : Edge)], e.target ∈ ([mkN "s", mkN "a"]).map Node.id)) ∧
    (∀ e ∈ (handlePlay [mkN "s", mkN "a"] [⟨"s", "a"⟩] "s" noModels).graph_edges,
      (Reaches [(⟨"s", "a"⟩ : Edge)] "s" e.source ∧
        Reaches [(⟨"s", "a"⟩ : Edge)] "s" e.target) ∧
      (∃ n ∈ (handlePlay [mkN "s", mkN "a"] [⟨"s", "a"⟩] "s" noModels).graph_nodes,
        n.id = e.source) ∧
      (∃ n ∈ (handlePlay [mkN "s", mkN "a"] [⟨"s", "a"⟩] "s" noModels).graph_nodes,
        n.id = e.target)) :=
  ⟨⟨by decide, by decide⟩,
    claim2_amended_edge_endpoints [mkN "s", mkN "a"] [⟨"s", "a"⟩] "s" noModels
      (by decide) (by decide)⟩

/-- C5: when the start id occurs in no input node, the start node is
omitted from the output, the DFS still proceeds from the start id over the
edge data, and every input node reachable from the start id is still
included; with nodes a, b, the edge a→b and the absent start id
"missing", both output lists are empty. -/
theorem claim5_missing_start
    (nodes : List Node) (edges : List Edge) (s : String)
    (lookup : String → Option ModelDescriptor)
    (h : s ∉ nodes.map Node.id) :
    (∀ n ∈ (handlePlay nodes edges s lookup).graph_nodes, n.id ≠ s) ∧
    (∀ n ∈ nodes, Reaches edges s n.id →
      n ∈ (handlePlay nodes edges s lookup).graph_nodes) ∧
    (handlePlay [mkN "a", mkN "b"] [⟨"a", "b"⟩] "missing" lookup).graph_nodes = [] ∧
    (handlePlay [mkN "a", mkN "b"] [⟨"a", "b"⟩] "missing" lookup).graph_edges = [] := by
  have hids : ∀ n ∈ nodes, n.id ≠ s := by
    intro n hn hc
    exact h (List.mem_map.mpr ⟨n, hn, hc⟩)
  refine ⟨?_, ?_, ?_, ?_⟩
  · intro n hn
    rw [handlePlay_graph_nodes] at hn
    unfold agentNodes at hn
    rcases List.mem_append.mp hn with hn | hn
    · have hfind : nodes.find? (fun node => node.id == s) = none := by
        rw [List.find?_eq_none]
        intro x hx
        simp [hids x hx]
      rw [hfind] at hn
      simp at hn
    · exact ((mem_filter_reachable nodes edges s n).mp hn).2.2
  · intro n hn hreach
    rw [handlePlay_graph_nodes]
    unfold agentNodes
    refine List.mem_append.mpr (Or.inr ?_)
    exact (mem_filter_reachable nodes edges s n).mpr ⟨hn, hreach, hids n hn⟩
  · simp [handlePlay, agentNodes, dfsRun, dfsList, edgeIds, mkN]
  · simp [handlePlay, validEdges, reachableNodeIds, dfsRun, dfsList, edgeIds]

theorem claim5_witness :
    ("z" ∉ ([mkN "a", mkN "b"]).map Node.id) ∧
    ((∀ n ∈ (handlePlay [mkN "a", mkN "b"] [⟨"a", "b"⟩] "z" noModels).graph_nodes,
        n.id ≠ "z") ∧
      (∀ n ∈ [mkN "a", mkN "b"], Reaches [(⟨"a", "b"⟩ : Edge)] "z" n.id →
        n ∈ (handlePlay [mkN "a", mkN "b"] [⟨"a", "b"⟩] "z" noModels).graph_nodes) ∧
      (handlePlay [mkN "a", mkN "b"] [⟨"a", "b"⟩] "missing" noModels).graph_nodes = [] ∧
      (handlePlay [mkN "a", mkN "b"] [⟨"a", "b"⟩] "missing" noModels).graph_edges = []) :=
  ⟨by decide,
    claim5_missing_start [mkN "a", mkN "b"] [⟨"a", "b"⟩] "z" noModels (by decide)⟩

/-- C6: the DFS is a total function (the Lean embedding terminates by a
well-founded measure even on self-loops and cycles), and with unique input
node ids every node appears at most once in the output node list — each
included node, in particular every node of a reachable cycle and the start
node, appears exactly once. -/
theorem claim6_each_node_once
    (nodes : List Node) (edges : List Edge) (s : String)
    (lookup : String → Option ModelDescriptor)
    (hnd : (nodes.map Node.id).Nodup) :
    ∀ n ∈ (handlePlay nodes edges s lookup).graph_nodes,
      (handlePlay nodes edges s lookup).graph_nodes.count n = 1 := by
  intro n hn
  rw [handlePlay_graph_nodes] at hn ⊢
  unfold agentNodes at hn ⊢
  have hnodes : nodes.Nodup := List.Nodup.of_map _ hnd
  have hcnodes : nodes.count n ≤ 1 := List.nodup_iff_count_le_one.mp hnodes n
  have hcF_le : (nodes.filter
      (fun node => decide (node.id ∈ (dfsRun edges s).reachable))).count n ≤
        nodes.count n :=
    List.Sublist.count_le (List.filter_sublist _) n
  rw [List.count_append]
  cases hfind : nodes.find? (fun node => node.id == s) with
  | none =>
    rw [hfind] at hn
    simp only [Option.toList_none, List.count_nil, List.nil_append,
      Nat.zero_add] at hn ⊢
    have hmem : n ∈ nodes.filter
        (fun node => decide (node.id ∈ (dfsRun edges s).reachable)) := hn
    have hpos : 0 < (nodes.filter
        (fun node => decide (node.id ∈ (dfsRun edges s).reachable))).count n :=
      List.count_pos_iff.mpr hmem
    omega
  | some m =>
    rw [hfind] at hn
    simp only [Option.toList_some] at hn ⊢
    by_cases hnm : n = m
    · subst hnm
      have hc1 : List.count n [n] = 1 := by simp
      have hms : n.id = s := by simpa using List.find?_some hfind
      have hF0 : (nodes.filter
          (fun node => decide (node.id ∈ (dfsRun edges s).reachable))).count n = 0 := by
        rw [List.count_eq_zero]
        intro hc
        have := ((mem_filter_reachable nodes edges s n).mp hc).2.2
        exact this hms
      omega
    · have hc0 : List.count n [m] = 0 := by
        rw [List.count_eq_zero]
        simp [hnm]
      have hmem : n ∈ nodes.filter
          (fun node => decide (node.id ∈ (dfsRun edges s).reachable)) := by
        rcases List.mem_append.mp hn with h | h
        · exact absurd (List.mem_singleton.mp h) hnm
        · exact h
      have hpos : 0 < (nodes.filter
          (fun node => decide (node.id ∈ (dfsRun edges s).reachable))).count n :=
        List.count_pos_iff.mpr hmem
      omega

theorem claim6_witness :
    ((([mkN "s", mkN "a"]).map Node.id).Nodup) ∧
    (∀ n ∈ (handlePlay [mkN "s", mkN "a"]
        [⟨"s", "s"⟩, ⟨"s", "a"⟩, ⟨"a", "s"⟩] "s" noModels).graph_nodes,
      (handlePlay [mkN "s", mkN "a"]
        [⟨"s", "s"⟩, ⟨"s", "a"⟩, ⟨"a", "s"⟩] "s" noModels).graph_nodes.count n = 1) :=
  ⟨by decide,
    claim6_each_node_once [mkN "s", mkN "a"]
      [⟨"s", "s"⟩, ⟨"s", "a"⟩, ⟨"a", "s"⟩] "s" noModels (by decide)⟩

/-- C8: a phantom edge-target id (an id carried by no input node) reached
by the DFS is added to the reachable id set, so the output edge list can
contain an edge whose target id matches no node of the output node list:
with the single node s and single edge s→x, the id x is reachable, the
edge s→x is kept, and no output node has id x. -/
theorem claim8_phantom_edge :
    ("x" ∈ (dfsRun [⟨"s", "x"⟩] "s").reachable) ∧
    ((⟨"s", "x"⟩ : Edge) ∈
      (handlePlay [mkN "s"] [⟨"s", "x"⟩] "s" noModels).graph_edges) ∧
    (∀ n ∈ (handlePlay [mkN "s"] [⟨"s", "x"⟩] "s" noModels).graph_nodes,
      n.id ≠ "x") := by
  refine ⟨?_, ?_, ?_⟩
  · simp [dfsRun, dfsList, edgeIds]
  · simp [handlePlay, validEdges, reachableNodeIds, dfsRun, dfsList, edgeIds]
  · simp [handlePlay, agentNodes, dfsRun, dfsList, edgeIds, mkN]

/-- C9: the whole computation is a deterministic function of the node
list, edge list, start id and model lookup: runs on equal inputs (with
pointwise-equal lookups) produce equal request payloads.  Non-mutation of
the inputs holds by construction in this pure embedding, matching the
source, which applies only non-mutating array and set operations to the
snapshot. -/
theorem claim9_deterministic
    (nodes₁ nodes₂ : List Node) (edges₁ edges₂ : List Edge) (s₁ s₂ : String)
    (lookup₁ lookup₂ : String → Option ModelDescriptor)
    (hn : nodes₁ = nodes₂) (he : edges₁ = edges₂) (hs : s₁ = s₂)
    (hl : ∀ x, lookup₁ x = lookup₂ x) :
    handlePlay nodes₁ edges₁ s₁ lookup₁ = handlePlay nodes₂ edges₂ s₂ lookup₂ := by
  subst hn
  subst he
  subst hs
  have hcm : ∀ ns : List Node, collectModels lookup₁ ns = collectModels lookup₂ ns := by
    intro ns
    induction ns with
    | nil => rfl
    | cons n rest ih => simp [collectModels, hl n.id, ih]
  simp [handlePlay, hcm]

theorem claim9_witness :
    (([mkN "s"] : List Node) = [mkN "s"] ∧ ([(⟨"s", "s"⟩ : Edge)]) = [⟨"s", "s"⟩] ∧
      ("s" : String) = "s" ∧ (∀ x, noModels x = noModels x)) ∧
    handlePlay [mkN "s"] [⟨"s", "s"⟩] "s" noModels =
      handlePlay [mkN "s"] [⟨"s", "s"⟩] "s" noModels :=
  ⟨⟨rfl, rfl, rfl, fun _ => rfl⟩,
    claim9_deterministic [mkN "s"] [mkN "s"] [⟨"s", "s"⟩] [⟨"s", "s"⟩] "s" "s"
      noModels noModels rfl rfl rfl (fun _ => rfl)⟩
